import Mathlib

/-!
Verification of the trapezoidal-rule integrator in `src/trapezoidal_rule.cpp`.

The C++ source is:

```
double trapezoidal_rule(double (*func)(double), double a, double b, int n)
{
    double value = 0.0;
    double h = (b - a) / n;
    for (int i = 1; i <= n - 1; i++)
    {
        value += func(a + (i * h));
    }
    value = (func(a) + 2 * value + func(b)) * h / 2;
    return value;
}
```

We embed it twice:

* over an arbitrary field `K` (instantiated at `ℝ` in the theorems: exact real
  arithmetic, the semantics the spec's algebraic claims are phrased in);
* over `Fl`, rationals extended with `inf`, `neginf` and `nan` following the
  IEEE-754 special-value rules for `+`, `-`, `*`, `/` (every finite double is a
  rational number; this model drops rounding, which is irrelevant to the
  NaN/Inf-propagation claims it is used for).

A third artifact, `callPoints`, records the list of arguments at which the
integrand is invoked during one call, in loop order, with the two endpoint
evaluations of the final line appended.
-/

open Finset

/-- Embedding of the accumulation loop
`for (int i = 1; i <= n - 1; i++) value += func(a + (i * h));`:
`trapLoop func a h k` is the content of `value` after the iterations
`i = 1 .. k`, accumulated in the same left-to-right order as the loop. -/
def trapLoop {K : Type*} [Field K] (func : K → K) (a h : K) : ℕ → K
  | 0 => 0
  | k + 1 => trapLoop func a h k + func (a + ((k : K) + 1) * h)

/-- Embedding of `trapezoidal_rule` over exact field arithmetic.  The C++ loop
runs for `i = 1 .. n - 1`, i.e. `(n - 1).toNat` iterations (zero iterations
whenever `n ≤ 1`).  `n` is the C++ `int` argument, modelled as `ℤ`. -/
def trapezoidal_rule {K : Type*} [Field K] (func : K → K) (a b : K) (n : ℤ) : K :=
  let h : K := (b - a) / (n : K)
  let value : K := trapLoop func a h (n - 1).toNat
  (func a + 2 * value + func b) * h / 2

/-- The loop accumulates exactly the sum of `func (a + i * h)` over
`i = 1 .. k`. -/
theorem trapLoop_eq_sum {K : Type*} [Field K] (f : K → K) (a h : K) :
    ∀ k : ℕ, trapLoop f a h k = ∑ i ∈ Finset.Icc 1 k, f (a + (i : K) * h) := by
  intro k
  induction k with
  | zero => simp [trapLoop]
  | succ k ih =>
      rw [trapLoop, ih, Finset.sum_Icc_succ_top (Nat.one_le_iff_ne_zero.mpr (Nat.succ_ne_zero k))]
      push_cast
      ring

/-- Claim C1: for every function `f`, all real bounds `a`, `b` and every
integer `n ≥ 1`, `trapezoidal_rule f a b n` returns exactly
`(f a + 2 * S + f b) * h / 2` where `h = (b - a) / n` and `S` is the sum of
`f (a + i * h)` for `i = 1 .. n - 1` (the empty sum when `n = 1`; the index
set `Finset.Icc 1 (n-1).toNat` is exactly `{1, …, n-1}` since `n ≥ 1`). -/
theorem trapezoidal_rule_closed_form (f : ℝ → ℝ) (a b : ℝ) (n : ℤ) (_hn : 1 ≤ n) :
    trapezoidal_rule f a b n =
      (f a + 2 * (∑ i ∈ Finset.Icc 1 (n - 1).toNat, f (a + (i : ℝ) * ((b - a) / (n : ℝ)))) + f b)
        * ((b - a) / (n : ℝ)) / 2 := by
  rw [trapezoidal_rule, trapLoop_eq_sum]

/-- Witness for C1 at `f = id`, `a = 0`, `b = 1`, `n = 2`:
`h = 1/2`, `S = f (1/2) = 1/2`, result `(0 + 2 * (1/2) + 1) * (1/2) / 2 = 1/2`. -/
theorem trapezoidal_rule_closed_form_witness :
    trapezoidal_rule (fun x => x) 0 1 2 =
      ((fun x => x) (0:ℝ) +
          2 * (∑ i ∈ Finset.Icc 1 ((2:ℤ) - 1).toNat, (fun x => x) (0 + (i : ℝ) * ((1 - 0) / ((2:ℤ) : ℝ)))) +
          (fun x => x) 1) * ((1 - 0) / ((2:ℤ) : ℝ)) / 2 :=
  trapezoidal_rule_closed_form (fun x => x) 0 1 2 (by norm_num)

/-- Claim C3: zero-width interval: for every `f`, every real `a` and every
integer `n ≥ 1`, `trapezoidal_rule f a a n = 0` exactly, regardless of the
function: the step width `h = (a - a) / n` is `0`, so the final product is
zero whatever the accumulated sum is. -/
theorem trapezoidal_rule_zero_width (f : ℝ → ℝ) (a : ℝ) (n : ℤ) (_hn : 1 ≤ n) :
    trapezoidal_rule f a a n = 0 := by
  simp [trapezoidal_rule]

/-- Witness for C3 at `f x = x * x + 5`, `a = 3`, `n = 4`. -/
theorem trapezoidal_rule_zero_width_witness :
    trapezoidal_rule (fun x : ℝ => x * x + 5) 3 3 4 = 0 :=
  trapezoidal_rule_zero_width (fun x => x * x + 5) 3 4 (by norm_num)

/-- Gauss sum over `{1, …, m}`, in `ℝ`. -/
theorem sum_Icc_id_real (m : ℕ) : ∑ i ∈ Finset.Icc 1 m, (i : ℝ) = m * (m + 1) / 2 := by
  induction m with
  | zero => simp
  | succ m ih =>
      rw [Finset.sum_Icc_succ_top (by omega), ih]
      push_cast
      ring

/-- Reindexing a sum over `{1, …, m}` through `0, …, m-1`. -/
theorem sum_Icc_one_eq_sum_range (g : ℕ → ℝ) (m : ℕ) :
    ∑ i ∈ Finset.Icc 1 m, g i = ∑ i ∈ Finset.range m, g (i + 1) := by
  induction m with
  | zero => simp
  | succ m ih =>
      rw [Finset.sum_Icc_succ_top (by omega), Finset.sum_range_succ, ih]

/-- Reflecting a sum over `{1, …, m}`: summing `g (m + 1 - i)` gives the same
value as summing `g i`. -/
theorem sum_Icc_one_reflect (g : ℕ → ℝ) (m : ℕ) :
    ∑ i ∈ Finset.Icc 1 m, g (m + 1 - i) = ∑ i ∈ Finset.Icc 1 m, g i := by
  rw [sum_Icc_one_eq_sum_range (fun i => g (m + 1 - i)) m, sum_Icc_one_eq_sum_range g m,
    ← Finset.sum_range_reflect (fun j => g (j + 1)) m]
  refine Finset.sum_congr rfl ?_
  intro j hj
  have hj2 : j < m := Finset.mem_range.mp hj
  congr 1
  omega

/-- Claim C4: exactness on linear functions: for all constants `c0`, `c1`, all
real bounds `a`, `b` and every integer `n ≥ 1`, applying the routine to
`f x = c0 + c1 * x` yields exactly the integral
`c0 * (b - a) + c1 * (b ^ 2 - a ^ 2) / 2` (over exact real arithmetic). -/
theorem trapezoidal_rule_linear_exact (c0 c1 a b : ℝ) (n : ℤ) (hn : 1 ≤ n) :
    trapezoidal_rule (fun x => c0 + c1 * x) a b n
      = c0 * (b - a) + c1 * (b ^ 2 - a ^ 2) / 2 := by
  have hN1 : (1 : ℝ) ≤ (n : ℝ) := by exact_mod_cast hn
  have hN : (n : ℝ) ≠ 0 := by linarith
  have hm : (((n - 1).toNat : ℕ) : ℝ) = (n : ℝ) - 1 := by
    have : ((n - 1).toNat : ℤ) = n - 1 := Int.toNat_of_nonneg (by omega)
    exact_mod_cast congrArg (fun z : ℤ => (z : ℝ)) this
  simp only [trapezoidal_rule, trapLoop_eq_sum]
  set m : ℕ := (n - 1).toNat with hmdef
  set h : ℝ := (b - a) / (n : ℝ) with hdef
  have hsummand : ∀ i ∈ Finset.Icc 1 m,
      c0 + c1 * (a + (i : ℝ) * h) = (c0 + c1 * a) + (c1 * h) * (i : ℝ) := by
    intro i _
    ring
  rw [Finset.sum_congr rfl hsummand, Finset.sum_add_distrib, Finset.sum_const,
    ← Finset.mul_sum, sum_Icc_id_real, Nat.card_Icc, nsmul_eq_mul]
  simp only [Nat.add_sub_cancel]
  rw [hdef]
  field_simp
  rw [hm]
  ring

/-- Witness for C4 at `c0 = 1`, `c1 = 2`, `a = 0`, `b = 1`, `n = 3`. -/
theorem trapezoidal_rule_linear_exact_witness :
    trapezoidal_rule (fun x : ℝ => 1 + 2 * x) 0 1 3
      = 1 * ((1 : ℝ) - 0) + 2 * ((1 : ℝ) ^ 2 - 0 ^ 2) / 2 :=
  trapezoidal_rule_linear_exact 1 2 0 1 3 (by norm_num)

/-- Claim C5: reversal antisymmetry: for every `f`, all real bounds `a`, `b`
and every integer `n ≥ 1`, `trapezoidal_rule f a b n` equals
`-trapezoidal_rule f b a n` exactly over real arithmetic: the reversed call
has step width `-h` and samples the same interior points in reverse order. -/
theorem trapezoidal_rule_reversal (f : ℝ → ℝ) (a b : ℝ) (n : ℤ) (hn : 1 ≤ n) :
    trapezoidal_rule f a b n = -trapezoidal_rule f b a n := by
  have hN1 : (1 : ℝ) ≤ (n : ℝ) := by exact_mod_cast hn
  have hN : (n : ℝ) ≠ 0 := by linarith
  have hm : (((n - 1).toNat : ℕ) : ℝ) = (n : ℝ) - 1 := by
    have : ((n - 1).toNat : ℤ) = n - 1 := Int.toNat_of_nonneg (by omega)
    exact_mod_cast congrArg (fun z : ℤ => (z : ℝ)) this
  simp only [trapezoidal_rule, trapLoop_eq_sum]
  set m : ℕ := (n - 1).toNat with hmdef
  have hpt : ∀ i ∈ Finset.Icc 1 m,
      f (b + (i : ℝ) * ((a - b) / (n : ℝ)))
        = (fun j : ℕ => f (a + (j : ℝ) * ((b - a) / (n : ℝ)))) (m + 1 - i) := by
    intro i hi
    have hi2 : i ≤ m := (Finset.mem_Icc.mp hi).2
    have hcast : ((m + 1 - i : ℕ) : ℝ) = (n : ℝ) - (i : ℝ) := by
      have h1 : ((m + 1 - i : ℕ) : ℝ) = ((m : ℝ) + 1) - (i : ℝ) := by
        push_cast [Nat.cast_sub (by omega : i ≤ m + 1)]
        ring
      rw [h1, hm]
      ring
    show f (b + (i : ℝ) * ((a - b) / (n : ℝ)))
        = f (a + ((m + 1 - i : ℕ) : ℝ) * ((b - a) / (n : ℝ)))
    rw [hcast]
    congr 1
    field_simp
    ring
  rw [Finset.sum_congr rfl hpt, sum_Icc_one_reflect (fun j : ℕ => f (a + (j : ℝ) * ((b - a) / (n : ℝ)))) m]
  ring

/-- Witness for C5 at `f = id`, `a = 0`, `b = 1`, `n = 2`. -/
theorem trapezoidal_rule_reversal_witness :
    trapezoidal_rule (fun x : ℝ => x) 0 1 2 = -trapezoidal_rule (fun x : ℝ => x) 1 0 2 :=
  trapezoidal_rule_reversal (fun x : ℝ => x) 0 1 2 (by norm_num)

/-- Claim C6: linearity: for all constants `α`, `β`, all functions `f`, `g`,
all real bounds `a`, `b` and every integer `n ≥ 1`, integrating
`x ↦ α * f x + β * g x` gives exactly
`α * trapezoidal_rule f a b n + β * trapezoidal_rule g a b n` over exact real
arithmetic. -/
theorem trapezoidal_rule_linearity (α β : ℝ) (f g : ℝ → ℝ) (a b : ℝ) (n : ℤ) (_hn : 1 ≤ n) :
    trapezoidal_rule (fun x => α * f x + β * g x) a b n
      = α * trapezoidal_rule f a b n + β * trapezoidal_rule g a b n := by
  simp only [trapezoidal_rule, trapLoop_eq_sum]
  rw [Finset.sum_add_distrib, ← Finset.mul_sum, ← Finset.mul_sum]
  ring

/-- Witness for C6 at `α = 2`, `β = 3`, `f = id`, `g = const 1`, `a = 0`,
`b = 1`, `n = 2`. -/
theorem trapezoidal_rule_linearity_witness :
    trapezoidal_rule (fun x : ℝ => 2 * x + 3 * 1) 0 1 2
      = 2 * trapezoidal_rule (fun x : ℝ => x) 0 1 2
          + 3 * trapezoidal_rule (fun _ : ℝ => 1) 0 1 2 :=
  trapezoidal_rule_linearity 2 3 (fun x => x) (fun _ => 1) 0 1 2 (by norm_num)

set_option maxHeartbeats 1600000 in
/-- Claim C2: the three regression scenarios of `test()` reproduce the
reference values of the assertions within absolute tolerance `1e-6`:
`1/x` on `[1,2]` with `n = 10` gives `≈ 0.693771`, `exp (-x)` on `[0,1]` with
`n = 10` gives `≈ 0.632647`, and `1/(1+x²)` on `[0,1]` with `n = 20` gives
`≈ 0.785294` (stated over exact real arithmetic; `exp (-1/10)` is bracketed
by its degree-8 Taylor sum with remainder below `2.8e-13`). -/
theorem trapezoidal_rule_scenarios :
    |trapezoidal_rule (fun x : ℝ => 1 / x) 1 2 10 - 0.693771| < 1e-6 ∧
    |trapezoidal_rule (fun x : ℝ => Real.exp (-x)) 0 1 10 - 0.632647| < 1e-6 ∧
    |trapezoidal_rule (fun x : ℝ => 1 / (1 + x * x)) 0 1 20 - 0.785294| < 1e-6 := by
  have h9 : ((10 - 1 : ℤ)).toNat = 9 := rfl
  have h19 : ((20 - 1 : ℤ)).toNat = 19 := rfl
  refine ⟨?_, ?_, ?_⟩
  · simp only [trapezoidal_rule, h9, trapLoop]
    rw [abs_lt]
    norm_num
  · have hgen : ∀ f : ℝ → ℝ, trapezoidal_rule f 0 1 10 =
        (f 0 + 2 * (f (1/10) + f (1/5) + f (3/10) + f (2/5) + f (1/2) + f (3/5) + f (7/10)
          + f (4/5) + f (9/10)) + f 1) * (1/20) := by
      intro f
      simp only [trapezoidal_rule, h9, trapLoop]
      norm_num
      ring
    set r : ℝ := Real.exp (-(1/10)) with hr
    have key : ∀ i : ℕ, Real.exp (-((i : ℝ) / 10)) = r ^ i := by
      intro i
      rw [hr, ← Real.exp_nat_mul]
      congr 1
      ring
    have e0 : Real.exp (-(0:ℝ)) = 1 := by rw [neg_zero, Real.exp_zero]
    have e2 : Real.exp (-(1/5 : ℝ)) = r ^ 2 := by
      have := key 2
      norm_num at this
      exact this
    have e3 : Real.exp (-(3/10 : ℝ)) = r ^ 3 := by
      have := key 3
      norm_num at this
      exact this
    have e4 : Real.exp (-(2/5 : ℝ)) = r ^ 4 := by
      have := key 4
      norm_num at this
      exact this
    have e5 : Real.exp (-(1/2 : ℝ)) = r ^ 5 := by
      have := key 5
      norm_num at this
      exact this
    have e6 : Real.exp (-(3/5 : ℝ)) = r ^ 6 := by
      have := key 6
      norm_num at this
      exact this
    have e7 : Real.exp (-(7/10 : ℝ)) = r ^ 7 := by
      have := key 7
      norm_num at this
      exact this
    have e8 : Real.exp (-(4/5 : ℝ)) = r ^ 8 := by
      have := key 8
      norm_num at this
      exact this
    have e9 : Real.exp (-(9/10 : ℝ)) = r ^ 9 := by
      have := key 9
      norm_num at this
      exact this
    have e10 : Real.exp (-(1:ℝ)) = r ^ 10 := by
      have := key 10
      norm_num at this
      exact this
    have hT := hgen (fun x => Real.exp (-x))
    simp only [] at hT
    rw [e0, e2, e3, e4, e5, e6, e7, e8, e9, e10] at hT
    have hxabs : |(-(1/10) : ℝ)| ≤ 1 := by rw [abs_neg]; rw [abs_of_nonneg] <;> norm_num
    have hb := Real.exp_bound hxabs (n := 8) (by norm_num)
    have hP : ∑ m ∈ Finset.range 8, (-(1/10) : ℝ) ^ m / m.factorial
        = 5067089541 / 5600000000 := by
      simp [Finset.sum_range_succ, Nat.factorial]
      norm_num
    rw [hP] at hb
    have hB : |(-(1/10) : ℝ)| ^ 8 * (((8:ℕ).succ) / ((8:ℕ).factorial * 8)) ≤ 2.8e-13 := by
      rw [abs_neg, abs_of_nonneg (by norm_num : (0:ℝ) ≤ 1/10)]
      norm_num [Nat.factorial]
    have h1 : |r - 5067089541 / 5600000000| ≤ 2.8e-13 := le_trans hb hB
    have h2 := abs_le.mp h1
    have hL : (904837418035/1000000000000 : ℝ) ≤ r := by linarith [h2.1]
    have hU : r ≤ (904837418036/1000000000000 : ℝ) := by linarith [h2.2]
    have hr0 : (0:ℝ) ≤ r := le_trans (by norm_num) hL
    rw [hT, abs_lt]
    constructor
    · have low : ((904837418035/1000000000000:ℝ) + (904837418035/1000000000000:ℝ)^2
          + (904837418035/1000000000000:ℝ)^3 + (904837418035/1000000000000:ℝ)^4
          + (904837418035/1000000000000:ℝ)^5 + (904837418035/1000000000000:ℝ)^6
          + (904837418035/1000000000000:ℝ)^7 + (904837418035/1000000000000:ℝ)^8
          + (904837418035/1000000000000:ℝ)^9)
          ≤ r + r^2 + r^3 + r^4 + r^5 + r^6 + r^7 + r^8 + r^9 := by
        gcongr
      have low10 : ((904837418035/1000000000000:ℝ))^10 ≤ r^10 := by
        gcongr
      nlinarith [low, low10]
    · have high : (r + r^2 + r^3 + r^4 + r^5 + r^6 + r^7 + r^8 + r^9)
          ≤ ((904837418036/1000000000000:ℝ) + (904837418036/1000000000000:ℝ)^2
          + (904837418036/1000000000000:ℝ)^3 + (904837418036/1000000000000:ℝ)^4
          + (904837418036/1000000000000:ℝ)^5 + (904837418036/1000000000000:ℝ)^6
          + (904837418036/1000000000000:ℝ)^7 + (904837418036/1000000000000:ℝ)^8
          + (904837418036/1000000000000:ℝ)^9) := by
        gcongr
      have high10 : r^10 ≤ ((904837418036/1000000000000:ℝ))^10 := by
        gcongr
      nlinarith [high, high10]
  · simp only [trapezoidal_rule, h19, trapLoop]
    rw [abs_lt]
    norm_num

/-- The list of arguments the loop passes to `func`, in loop order:
`a + i * h` for `i = 1 .. k`. -/
def loopPoints {K : Type*} [Field K] (a h : K) : ℕ → List K
  | 0 => []
  | k + 1 => loopPoints a h k ++ [a + ((k : K) + 1) * h]

/-- All arguments at which one call `trapezoidal_rule func a b n` invokes
`func`: the loop points for `i = 1 .. n - 1` in loop order, followed by the
two endpoint evaluations `func(a)` and `func(b)` of the final line. -/
def callPoints {K : Type*} [Field K] (a b : K) (n : ℤ) : List K :=
  loopPoints a ((b - a) / (n : K)) (n - 1).toNat ++ [a, b]

/-- The loop performs exactly `k` evaluations. -/
theorem loopPoints_length {K : Type*} [Field K] (a h : K) :
    ∀ k : ℕ, (loopPoints a h k).length = k := by
  intro k
  induction k with
  | zero => rfl
  | succ k ih => simp [loopPoints, ih]

/-- Characterisation of the loop's evaluation points. -/
theorem mem_loopPoints {K : Type*} [Field K] (a h : K) (k : ℕ) (x : K) :
    x ∈ loopPoints a h k ↔ ∃ i : ℕ, 1 ≤ i ∧ i ≤ k ∧ x = a + (i : K) * h := by
  induction k with
  | zero =>
      simp only [loopPoints, List.not_mem_nil, false_iff]
      rintro ⟨i, h1, h2, -⟩
      omega
  | succ k ih =>
      simp only [loopPoints, List.mem_append, List.mem_singleton, ih]
      constructor
      · rintro (⟨i, h1, h2, hx⟩ | hx)
        · exact ⟨i, h1, by omega, hx⟩
        · exact ⟨k + 1, by omega, le_refl _, by push_cast [hx]; ring⟩
      · rintro ⟨i, h1, h2, hx⟩
        rcases Nat.lt_or_ge i (k + 1) with hik | hik
        · exact Or.inl ⟨i, h1, by omega, hx⟩
        · have : i = k + 1 := by omega
          subst this
          right
          rw [hx]
          push_cast
          ring

/-- The loop's accumulated value only depends on `func` through its values at
the loop's evaluation points. -/
theorem trapLoop_congr {K : Type*} [Field K] (f g : K → K) (a h : K) :
    ∀ k : ℕ, (∀ x ∈ loopPoints a h k, f x = g x) → trapLoop f a h k = trapLoop g a h k := by
  intro k
  induction k with
  | zero => intro _; rfl
  | succ k ih =>
      intro hfg
      rw [trapLoop, trapLoop, ih fun x hx => hfg x (by simp [loopPoints, hx]),
        hfg (a + ((k : K) + 1) * h) (by simp [loopPoints])]

/-- Claim C7: for every `n ≥ 1` a single call `trapezoidal_rule f a b n`
invokes `f` exactly `n + 1` times, at `a`, at the interior points
`a + i * h` for `i = 1 .. n - 1` (with `h = (b - a) / n`), and at `b`, and
at no other points: the call-point list has length `n + 1`, its members are
exactly those points, and the result depends on `f` only through its values
on that list. -/
theorem trapezoidal_rule_call_points (a b : ℝ) (n : ℤ) (hn : 1 ≤ n) :
    ((callPoints a b n).length : ℤ) = n + 1
    ∧ (∀ x : ℝ, x ∈ callPoints a b n ↔
        (x = a ∨ x = b ∨
          ∃ i : ℕ, 1 ≤ i ∧ (i : ℤ) ≤ n - 1 ∧ x = a + (i : ℝ) * ((b - a) / (n : ℝ))))
    ∧ ∀ f g : ℝ → ℝ, (∀ x ∈ callPoints a b n, f x = g x) →
        trapezoidal_rule f a b n = trapezoidal_rule g a b n := by
  have htoNat : ((n - 1).toNat : ℤ) = n - 1 := Int.toNat_of_nonneg (by omega)
  refine ⟨?_, ?_, ?_⟩
  · simp only [callPoints, List.length_append, loopPoints_length, List.length_cons,
      List.length_nil]
    omega
  · intro x
    simp only [callPoints, List.mem_append, List.mem_cons, List.mem_singleton,
      List.not_mem_nil, or_false, mem_loopPoints]
    constructor
    · rintro (⟨i, h1, h2, hx⟩ | hx | hx)
      · exact Or.inr (Or.inr ⟨i, h1, by omega, hx⟩)
      · exact Or.inl hx
      · exact Or.inr (Or.inl hx)
    · rintro (hx | hx | ⟨i, h1, h2, hx⟩)
      · exact Or.inr (Or.inl hx)
      · exact Or.inr (Or.inr hx)
      · exact Or.inl ⟨i, h1, by omega, hx⟩
  · intro f g hfg
    have ha : f a = g a := hfg a (by rw [callPoints]; exact List.mem_append_right _ (by simp))
    have hb : f b = g b := hfg b (by rw [callPoints]; exact List.mem_append_right _ (by simp))
    have hloop : trapLoop f a ((b - a) / (n : ℝ)) (n - 1).toNat
        = trapLoop g a ((b - a) / (n : ℝ)) (n - 1).toNat :=
      trapLoop_congr f g a _ _ fun x hx =>
        hfg x (by rw [callPoints]; exact List.mem_append_left _ hx)
    rw [trapezoidal_rule, trapezoidal_rule, ha, hb, hloop]

/-- Witness for C7 at `a = 0`, `b = 1`, `n = 2`: three evaluation points. -/
theorem trapezoidal_rule_call_points_witness :
    ((callPoints (0 : ℝ) 1 2).length : ℤ) = 2 + 1 :=
  (trapezoidal_rule_call_points 0 1 2 (by norm_num)).1

/-- IEEE-754-style value model for `double`: a finite value (every finite
double is a rational number; rounding is not modelled), the two infinities,
or NaN. -/
inductive Fl : Type where
  | fin : ℚ → Fl
  | inf : Fl
  | neginf : Fl
  | nan : Fl
deriving DecidableEq

namespace Fl

/-- IEEE addition on special values; exact on finite values. -/
def add : Fl → Fl → Fl
  | nan, _ => nan
  | _, nan => nan
  | fin x, fin y => fin (x + y)
  | fin _, inf => inf
  | inf, fin _ => inf
  | fin _, neginf => neginf
  | neginf, fin _ => neginf
  | inf, inf => inf
  | neginf, neginf => neginf
  | inf, neginf => nan
  | neginf, inf => nan

/-- IEEE negation. -/
def neg : Fl → Fl
  | fin x => fin (-x)
  | inf => neginf
  | neginf => inf
  | nan => nan

/-- IEEE subtraction, `x - y = x + (-y)`. -/
def sub (x y : Fl) : Fl := x.add y.neg

/-- IEEE multiplication on special values; exact on finite values
(`0 * ±∞ = NaN`). -/
def mul : Fl → Fl → Fl
  | nan, _ => nan
  | _, nan => nan
  | fin x, fin y => fin (x * y)
  | fin x, inf => if 0 < x then inf else if x < 0 then neginf else nan
  | fin x, neginf => if 0 < x then neginf else if x < 0 then inf else nan
  | inf, fin y => if 0 < y then inf else if y < 0 then neginf else nan
  | neginf, fin y => if 0 < y then neginf else if y < 0 then inf else nan
  | inf, inf => inf
  | inf, neginf => neginf
  | neginf, inf => neginf
  | neginf, neginf => inf

/-- IEEE division on special values; exact on finite values.  A finite zero
divisor is treated as `+0`, which is what both `b - a` (exact subtraction)
and the int-to-double conversion of `n` produce in this program
(`0/0 = NaN`, `x/0 = ±∞` by the sign of `x`). -/
def div : Fl → Fl → Fl
  | nan, _ => nan
  | _, nan => nan
  | fin x, fin y =>
      if y = 0 then (if x = 0 then nan else if 0 < x then inf else neginf)
      else fin (x / y)
  | fin _, inf => fin 0
  | fin _, neginf => fin 0
  | inf, fin y => if y < 0 then neginf else inf
  | neginf, fin y => if y < 0 then inf else neginf
  | inf, inf => nan
  | inf, neginf => nan
  | neginf, inf => nan
  | neginf, neginf => nan

/-- Finiteness test: `true` exactly on `fin` values. -/
def isFinite : Fl → Bool
  | fin _ => true
  | _ => false

end Fl

/-- The accumulation loop of `trapezoidal_rule`, over the `Fl` double model:
`value` starts at `0.0` and the iteration `i` adds `func(a + i * h)` (the
`int` loop counter `i` is converted to a finite double). -/
def trapLoopFl (func : Fl → Fl) (a h : Fl) : ℕ → Fl
  | 0 => Fl.fin 0
  | k + 1 => (trapLoopFl func a h k).add (func (a.add ((Fl.fin ((k : ℚ) + 1)).mul h)))

/-- Embedding of `trapezoidal_rule` over the `Fl` double model, following the
source line by line: `h = (b - a) / n`, the loop for `i = 1 .. n - 1`, and
`(func(a) + 2 * value + func(b)) * h / 2`. -/
def trapezoidal_ruleFl (func : Fl → Fl) (a b : Fl) (n : ℤ) : Fl :=
  let h : Fl := (b.sub a).div (Fl.fin (n : ℚ))
  let value : Fl := trapLoopFl func a h (n - 1).toNat
  ((((func a).add ((Fl.fin 2).mul value)).add (func b)).mul h).div (Fl.fin 2)

/-- Adding the finite zero is the identity in the `Fl` model. -/
theorem Fl.add_fin_zero (x : Fl) : x.add (Fl.fin 0) = x := by
  cases x <;> simp [Fl.add]

/-- A non-finite multiplicand makes every product non-finite. -/
theorem Fl.mul_nonfinite (s h : Fl) (hh : h.isFinite = false) :
    (s.mul h).isFinite = false := by
  cases s <;> cases h <;>
    simp only [Fl.isFinite, Fl.mul] at hh ⊢ <;>
    first
      | rfl
      | exact hh
      | (split_ifs <;> rfl)

/-- Dividing a non-finite value by the finite `2` stays non-finite. -/
theorem Fl.div_fin_two_nonfinite (x : Fl) (hx : x.isFinite = false) :
    (x.div (Fl.fin 2)).isFinite = false := by
  cases x <;>
    simp only [Fl.isFinite, Fl.div] at hx ⊢ <;>
    first
      | rfl
      | exact absurd hx (by simp)

/-- Claim C8: degenerate subdivision count: for every function `f` and all
finite bounds `a`, `b`, the call with `n = 0` divides by zero when computing
the step width, so `h` is `+∞`, `-∞` or NaN, and this propagates to a
non-finite result; no validation of `n` occurs and no error is raised (the
embedding is total). -/
theorem trapezoidal_ruleFl_n_zero (f : Fl → Fl) (a b : ℚ) :
    (((Fl.fin b).sub (Fl.fin a)).div (Fl.fin ((0 : ℤ) : ℚ)) = Fl.inf
      ∨ ((Fl.fin b).sub (Fl.fin a)).div (Fl.fin ((0 : ℤ) : ℚ)) = Fl.neginf
      ∨ ((Fl.fin b).sub (Fl.fin a)).div (Fl.fin ((0 : ℤ) : ℚ)) = Fl.nan)
    ∧ (trapezoidal_ruleFl f (Fl.fin a) (Fl.fin b) 0).isFinite = false := by
  have hstep : ((Fl.fin b).sub (Fl.fin a)).div (Fl.fin ((0 : ℤ) : ℚ)) = Fl.inf
      ∨ ((Fl.fin b).sub (Fl.fin a)).div (Fl.fin ((0 : ℤ) : ℚ)) = Fl.neginf
      ∨ ((Fl.fin b).sub (Fl.fin a)).div (Fl.fin ((0 : ℤ) : ℚ)) = Fl.nan := by
    simp only [Fl.sub, Fl.neg, Fl.add, Fl.div, Int.cast_zero, if_pos rfl]
    split_ifs <;> tauto
  refine ⟨hstep, ?_⟩
  have h0 : ((0 : ℤ) - 1).toNat = 0 := rfl
  rw [trapezoidal_ruleFl]
  simp only [h0, trapLoopFl]
  have h2v : (Fl.fin 2).mul (Fl.fin 0) = Fl.fin 0 := by
    simp [Fl.mul]
  rw [h2v, Fl.add_fin_zero]
  apply Fl.div_fin_two_nonfinite
  apply Fl.mul_nonfinite
  rcases hstep with h | h | h <;> rw [h] <;> rfl

/-- Claim C9: silently accepted negative subdivision count: for every
`n ≤ -1` and every function `f` finite at the two bounds, the loop body
never runs, the step width `(b - a) / n` is finite, and the call returns the
finite value `(f(a) + f(b)) * (b - a) / (2 * n)`; no error is raised (the
embedding is total). -/
theorem trapezoidal_ruleFl_negative_n (f : Fl → Fl) (a b fa fb : ℚ) (n : ℤ)
    (hn : n ≤ -1) (ha : f (Fl.fin a) = Fl.fin fa) (hb : f (Fl.fin b) = Fl.fin fb) :
    trapezoidal_ruleFl f (Fl.fin a) (Fl.fin b) n = Fl.fin ((fa + fb) * (b - a) / (2 * n)) := by
  have h0 : (n - 1).toNat = 0 := Int.toNat_of_nonpos (by omega)
  have hq : ((n : ℚ)) ≠ 0 := by
    exact_mod_cast (by omega : n ≠ 0)
  rw [trapezoidal_ruleFl]
  simp only [h0, trapLoopFl, Fl.sub, Fl.neg, Fl.add, ha, hb]
  have h2v : (Fl.fin 2).mul (Fl.fin 0) = Fl.fin 0 := by
    simp [Fl.mul]
  rw [h2v]
  simp only [Fl.add, Fl.div, Fl.mul, if_neg hq, add_zero]
  rw [if_neg (by norm_num : ¬(2 : ℚ) = 0)]
  congr 1
  field_simp
  ring

/-- Witness for C9 at the constant function `1`, `a = 0`, `b = 1`, `n = -1`:
the result is the finite value `(1 + 1) * (1 - 0) / (2 * (-1)) = -1`. -/
theorem trapezoidal_ruleFl_negative_n_witness :
    trapezoidal_ruleFl (fun _ => Fl.fin 1) (Fl.fin 0) (Fl.fin 1) (-1)
      = Fl.fin ((1 + 1) * (1 - 0) / (2 * (-1 : ℤ))) :=
  trapezoidal_ruleFl_negative_n (fun _ => Fl.fin 1) 0 1 1 1 (-1) (by norm_num) rfl rfl

/-- NaN absorbs through addition. -/
theorem Fl.nan_add (y : Fl) : Fl.nan.add y = Fl.nan := by
  cases y <;> rfl

/-- NaN absorbs through multiplication. -/
theorem Fl.nan_mul (y : Fl) : Fl.nan.mul y = Fl.nan := by
  cases y <;> rfl

/-- NaN absorbs through division. -/
theorem Fl.nan_div (y : Fl) : Fl.nan.div y = Fl.nan := by
  cases y <;> rfl

/-- Claim C10: for every call with `n ≤ 1` (including `n = 0` and negative
`n`) the integrand is still invoked exactly twice, at `a` and at `b`: the
call-point list is exactly `[a, b]`, of length `2` (for `n = 0` that is two
points, not `n + 1 = 1`); consequently, in the double model, a function that
is NaN at an endpoint always makes the result NaN even though no interior
point is sampled. -/
theorem trapezoidal_rule_two_endpoint_evals (a b : ℝ) (n : ℤ) (hn : n ≤ 1) :
    callPoints a b n = [a, b]
    ∧ (callPoints a b n).length = 2
    ∧ ∀ (f : Fl → Fl) (qa qb : ℚ), f (Fl.fin qa) = Fl.nan →
        trapezoidal_ruleFl f (Fl.fin qa) (Fl.fin qb) n = Fl.nan := by
  have h0 : (n - 1).toNat = 0 := Int.toNat_of_nonpos (by omega)
  have hcp : callPoints a b n = [a, b] := by
    rw [callPoints, h0, loopPoints, List.nil_append]
  refine ⟨hcp, by rw [hcp]; rfl, ?_⟩
  intro f qa qb hqa
  rw [trapezoidal_ruleFl]
  simp only [h0, trapLoopFl, hqa]
  rw [Fl.nan_add, Fl.nan_add, Fl.nan_mul, Fl.nan_div]

/-- Witness for C10 at `a = 0`, `b = 1`, `n = 0`: the two evaluation points
are the endpoints. -/
theorem trapezoidal_rule_two_endpoint_evals_witness :
    callPoints (0 : ℝ) 1 0 = [0, 1] :=
  (trapezoidal_rule_two_endpoint_evals 0 1 0 (by norm_num)).1
